import Mathlib

/-!
Shallow embedding of the Routine Finder filter-and-sort core
(`app.js` of the VU_Routine repository): helpers (`uniq`, `slotOrder`,
`dayOrder`), filter reading (`currentFilters`, `hasAnyFilter`), matching
(`applyFilters`), the sort comparator used by `render`, and the domain
population done in `init`. Rows are records of six optional text fields;
a missing field models a JS `undefined` property.
-/

namespace VU

/-- JS whitespace (the characters of `\s` relevant here): space, tab,
newline, carriage return, vertical tab, form feed. -/
def isWs (c : Char) : Bool :=
  c = ' ' || c = '\t' || c = '\n' || c = '\r' || c = '\x0b' || c = '\x0c'

/-- `String.prototype.toLowerCase`, modelled characterwise. -/
def lowerStr (s : String) : String :=
  ⟨s.data.map Char.toLower⟩

/-- `String.prototype.trim`: drop leading and trailing whitespace. -/
def trimChars (cs : List Char) : List Char :=
  ((cs.dropWhile isWs).reverse.dropWhile isWs).reverse

/-- `String.prototype.trim` on strings. -/
def jsTrim (s : String) : String :=
  ⟨trimChars s.data⟩

/-- `hay.includes(pat)`: `pat` occurs as a contiguous substring. -/
def listIncludes (hay pat : List Char) : Bool :=
  match hay with
  | [] => pat.isEmpty
  | _ :: t => pat.isPrefixOf hay || listIncludes t pat

/-- `String.prototype.includes` on strings. -/
def jsIncludes (hay pat : String) : Bool :=
  listIncludes hay.data pat.data

/-- A schedule row: the six fixed fields.  `none` models an absent
(`undefined`) property of the row object. -/
structure Row where
  day : Option String := none
  timeSlot : Option String := none
  courseCode : Option String := none
  teacher : Option String := none
  semsec : Option String := none
  room : Option String := none
deriving DecidableEq, Repr

/-- The raw values of the seven filter inputs (`els.q.value` and the six
select values). -/
structure FilterState where
  q : String := ""
  day : String := ""
  slot : String := ""
  course : String := ""
  teacher : String := ""
  semsec : String := ""
  room : String := ""
deriving DecidableEq, Repr

/-- The record built by `currentFilters()`. -/
structure Filters where
  q : String
  day : String
  slot : String
  course : String
  teacher : String
  semsec : String
  room : String
deriving DecidableEq, Repr

/-- `currentFilters()`: the free-text query is trimmed then lowercased;
the six select values are taken as-is. -/
def currentFilters (st : FilterState) : Filters :=
  { q := lowerStr (jsTrim st.q)
    day := st.day
    slot := st.slot
    course := st.course
    teacher := st.teacher
    semsec := st.semsec
    room := st.room }

/-- `Object.values(currentFilters()).some(v => v)` on an already-built
filter record: some field is a truthy (non-empty) string. -/
def hasAnyFilterF (f : Filters) : Bool :=
  f.q != "" || f.day != "" || f.slot != "" || f.course != "" ||
    f.teacher != "" || f.semsec != "" || f.room != ""

/-- `hasAnyFilter()`. -/
def hasAnyFilter (st : FilterState) : Bool :=
  hasAnyFilterF (currentFilters st)

/-- `undefined` joins as the empty string in `Array.prototype.join`. -/
def jsJoinVal (v : Option String) : String := v.getD ""

/-- The space-joined concatenation of the six field values, in the fixed
order used by `applyFilters`. -/
def joinFields (r : Row) : String :=
  String.intercalate " "
    [jsJoinVal r.day, jsJoinVal r.timeSlot, jsJoinVal r.courseCode,
      jsJoinVal r.teacher, jsJoinVal r.semsec, jsJoinVal r.room]

/-- The row predicate of `applyFilters`: free-text match on the joined,
lowercased fields, and exact equality for each set categorical filter. -/
def matchesRow (f : Filters) (r : Row) : Bool :=
  (f.q == "" || jsIncludes (lowerStr (joinFields r)) f.q) &&
  (f.day == "" || r.day == some f.day) &&
  (f.slot == "" || r.timeSlot == some f.slot) &&
  (f.course == "" || r.courseCode == some f.course) &&
  (f.teacher == "" || r.teacher == some f.teacher) &&
  (f.semsec == "" || r.semsec == some f.semsec) &&
  (f.room == "" || r.room == some f.room)

/-- `applyFilters(rows)`. -/
def applyFilters (st : FilterState) (rows : List Row) : List Row :=
  rows.filter (matchesRow (currentFilters st))

/-- The `DAY_ORDER` table with the `?? 99` fallback, on strings. -/
def dayOrderS (d : String) : Nat :=
  if d = "Sunday" then 1
  else if d = "Monday" then 2
  else if d = "Tuesday" then 3
  else if d = "Wednesday" then 4
  else if d = "Thursday" then 5
  else if d = "Friday" then 6
  else if d = "Saturday" then 7
  else 99

/-- `dayOrder(day)`: an absent day also falls back to 99. -/
def dayOrder : Option String → Nat
  | some s => dayOrderS s
  | none => 99

/-- The leading digit run of a character list. -/
def takeDigits (cs : List Char) : List Char :=
  cs.takeWhile Char.isDigit

/-- The number denoted by a digit run (base 10). -/
def digitsToNat (ds : List Char) : Nat :=
  ds.foldl (fun a c => a * 10 + (c.toNat - 48)) 0

/-- One attempt of the regex `/slot\s*(\d+)/i` anchored at the head of the
list: the four letters of `slot` case-insensitively, then optional
whitespace, then at least one digit. -/
def slotMatchAt (cs : List Char) : Option Nat :=
  match cs with
  | c1 :: c2 :: c3 :: c4 :: rest =>
    if c1.toLower == 's' && c2.toLower == 'l' && c3.toLower == 'o' && c4.toLower == 't' then
      let ds := takeDigits (rest.dropWhile isWs)
      if ds.isEmpty then none else some (digitsToNat ds)
    else none
  | _ => none

/-- The unanchored regex search: first position where `slotMatchAt`
succeeds. -/
def slotScan : List Char → Option Nat
  | [] => none
  | c :: cs =>
    match slotMatchAt (c :: cs) with
    | some n => some n
    | none => slotScan cs

/-- `slotOrder` on a string: the captured number, or the 9999 sentinel. -/
def slotOrderS (s : String) : Nat :=
  (slotScan s.data).getD 9999

/-- `slotOrder(slot)`: `slot || ""` maps an absent value to the empty
string first. -/
def slotOrder (s : Option String) : Nat :=
  slotOrderS (s.getD "")

/-- Strict lexicographic order on character lists (the code-unit order JS
uses to compare strings). -/
def charListLt : List Char → List Char → Bool
  | _, [] => false
  | [], _ :: _ => true
  | a :: as, b :: bs => decide (a < b) || (a == b && charListLt as bs)

/-- Strict ordinal order on strings. -/
def strLt (a b : String) : Bool :=
  charListLt a.data b.data

/-- Non-strict ordinal order on strings. -/
def strLe (a b : String) : Bool :=
  !(strLt b a)

/-- `localeCompare`, modelled as ordinal three-way string comparison. -/
def strCmp (a b : String) : Int :=
  if strLt a b then -1 else if strLt b a then 1 else 0

/-- The sort comparator of `render`: day values are first compared for
identity, and only when they are identical are the slot ranks and then the
course codes consulted. -/
def rowCmp (a b : Row) : Int :=
  if a.day ≠ b.day then (dayOrder a.day : Int) - (dayOrder b.day : Int)
  else
    let sa := slotOrder a.timeSlot
    let sb := slotOrder b.timeSlot
    if sa ≠ sb then (sa : Int) - (sb : Int)
    else strCmp (a.courseCode.getD "") (b.courseCode.getD "")

/-- `rowCmp` as a binary `≤`-style comparator. -/
def rowLe (a b : Row) : Bool :=
  rowCmp a b ≤ 0

/-- The stable sort performed on the filtered rows. -/
def sortRows (l : List Row) : List Row :=
  l.mergeSort rowLe

/-- The tri-state outcome reported to the rendering collaborator. -/
inductive ResultState where
  | inactive
  | empty
  | found (n : Nat)
deriving DecidableEq, Repr

/-- The pure core of `render`: with no filter set the result is empty;
otherwise the matching rows, sorted. -/
def query (st : FilterState) (rows : List Row) : List Row :=
  if hasAnyFilter st then sortRows (applyFilters st rows) else []

/-- The result state reported by `render`. -/
def resultState (st : FilterState) (rows : List Row) : ResultState :=
  if hasAnyFilter st then
    if (applyFilters st rows).length = 0 then .empty
    else .found (applyFilters st rows).length
  else .inactive

/-- `arr.filter(Boolean)` over field values: drop absent and empty. -/
def truthyVals (arr : List (Option String)) : List String :=
  (arr.filterMap id).filter (fun v => v ≠ "")

/-- Deduplication keeping first occurrences, with an accumulator of values
already seen (the insertion-order behaviour of `new Set`). -/
def dedupFirstAux (seen : List String) : List String → List String
  | [] => []
  | x :: xs =>
    if x ∈ seen then dedupFirstAux seen xs
    else x :: dedupFirstAux (x :: seen) xs

/-- `uniq = arr => Array.from(new Set(arr.filter(Boolean)))`. -/
def uniq (arr : List (Option String)) : List String :=
  dedupFirstAux [] (truthyVals arr)

/-- Selector for the six categorical fields. -/
inductive Field where
  | day
  | slot
  | course
  | teacher
  | semsec
  | room
deriving DecidableEq, Repr

/-- Projection of a row at a field selector. -/
def fieldGet : Field → Row → Option String
  | .day => Row.day
  | .slot => Row.timeSlot
  | .course => Row.courseCode
  | .teacher => Row.teacher
  | .semsec => Row.semsec
  | .room => Row.room

/-- The domain population of `init`: distinct non-empty values of the
field, sorted by the field-specific comparator (`dayOrder` for days,
`slotOrder` for slots, default lexicographic sort otherwise). -/
def extractDomain (rows : List Row) (f : Field) : List String :=
  let vals := uniq (rows.map (fieldGet f))
  match f with
  | .day => vals.mergeSort (fun a b => decide (dayOrderS a ≤ dayOrderS b))
  | .slot => vals.mergeSort (fun a b => decide (slotOrderS a ≤ slotOrderS b))
  | _ => vals.mergeSort strLe

/-- Normalization of absent fields to the empty string. -/
def normRow (r : Row) : Row :=
  { day := some (r.day.getD "")
    timeSlot := some (r.timeSlot.getD "")
    courseCode := some (r.courseCode.getD "")
    teacher := some (r.teacher.getD "")
    semsec := some (r.semsec.getD "")
    room := some (r.room.getD "") }

/-- Modelled from the spec: the composite sort key of a row — weekday
rank, then numeric slot rank, then course code. -/
def rowKey (r : Row) : Nat × Nat × String :=
  (dayOrder r.day, slotOrder r.timeSlot, r.courseCode.getD "")

/-- Modelled from the spec: ascending lexicographic order on the composite
key (day rank, then slot rank, then course code). -/
def keyLe (a b : Row) : Prop :=
  dayOrder a.day < dayOrder b.day ∨
    (dayOrder a.day = dayOrder b.day ∧
      (slotOrder a.timeSlot < slotOrder b.timeSlot ∨
        (slotOrder a.timeSlot = slotOrder b.timeSlot ∧
          strLe (a.courseCode.getD "") (b.courseCode.getD "") = true)))

instance (a b : Row) : Decidable (keyLe a b) := by
  unfold keyLe
  infer_instance

/-- `keyLe` as a boolean comparator. -/
def keyLeB (a b : Row) : Bool :=
  decide (keyLe a b)

/-! ### Concrete rows and filter states used in examples -/

/-- Example row: Sunday, first slot. -/
def sunRow : Row := { day := some "Sunday", timeSlot := some "Slot 1" }

/-- Example row: Monday, first slot. -/
def monRow : Row := { day := some "Monday", timeSlot := some "Slot 1" }

/-- Example row: Wednesday, first slot. -/
def wedRow : Row := { day := some "Wednesday", timeSlot := some "Slot 1" }

/-- Filter state with only the Time-Slot selector set. -/
def stSlot1 : FilterState := { slot := "Slot 1" }

/-- Filter state with only the free-text query `slot` set. -/
def stQslot : FilterState := { q := "slot" }

/-- Row with the unknown day `X` and slot rank 2. -/
def rowDayX : Row := { day := some "X", timeSlot := some "Slot 2" }

/-- Row with the unknown day `Y` and slot rank 1. -/
def rowDayY : Row := { day := some "Y", timeSlot := some "Slot 1" }

/-- Row with unknown day `X`, slot rank 9. -/
def rowX9 : Row := { day := some "X", timeSlot := some "Slot 9", courseCode := some "A" }

/-- Row with unknown day `Y`, slot rank 3. -/
def rowY3 : Row := { day := some "Y", timeSlot := some "Slot 3", courseCode := some "A" }

/-- Row with unknown day `Y`, slot rank 1. -/
def rowY1 : Row := { day := some "Y", timeSlot := some "Slot 1", courseCode := some "B" }

/-- Row with unknown day `X`, slot rank 1. -/
def rowX1 : Row := { day := some "X", timeSlot := some "Slot 1", courseCode := some "A" }

/-- Row whose Day property is absent. -/
def rowNoDay : Row := { timeSlot := some "Slot 2", courseCode := some "C" }

/-- Row whose Day property is the empty string. -/
def rowEmptyDay : Row := { day := some "", timeSlot := some "Slot 1", courseCode := some "C" }

/-- End-to-end example row of the spec: Sunday, CSE101, room 305. -/
def sunCse : Row := { day := some "Sunday", courseCode := some "CSE101", room := some "305" }

/-- End-to-end example row of the spec: Monday, CSE101, room 306. -/
def monCse : Row := { day := some "Monday", courseCode := some "CSE101", room := some "306" }

/-- Filter state selecting course CSE101. -/
def stCourse : FilterState := { course := "CSE101" }

/-- A row carrying only a Room value. -/
def roomRow (s : String) : Row := { room := some s }

/-- Sunday row with Time Slot `Slot 2`. -/
def slotRow2 : Row := { day := some "Sunday", timeSlot := some "Slot 2" }

/-- Sunday row with Time Slot `Slot 10`. -/
def slotRow10 : Row := { day := some "Sunday", timeSlot := some "Slot 10" }

/-- Filter state selecting the day Sunday. -/
def stSunday : FilterState := { day := "Sunday" }

/-- Declarative reading of one anchored attempt of `/slot\s*(\d+)/i`: the
list starts with the four letters of `slot` case-insensitively, then a run
of whitespace, then a maximal non-empty run of digits whose value is the
captured number. -/
def slotPat (cs : List Char) (m : Nat) : Prop :=
  ∃ c1 c2 c3 c4 w ds rest, cs = c1 :: c2 :: c3 :: c4 :: (w ++ (ds ++ rest)) ∧
    c1.toLower = 's' ∧ c2.toLower = 'l' ∧ c3.toLower = 'o' ∧ c4.toLower = 't' ∧
    (∀ c ∈ w, isWs c = true) ∧ ds ≠ [] ∧ (∀ c ∈ ds, c.isDigit = true) ∧
    (∀ c, rest.head? = some c → c.isDigit = false) ∧ m = digitsToNat ds

/-! ### Lemmas about deduplication -/

theorem mem_dedupFirstAux {v : String} :
    ∀ {seen l : List String}, v ∈ dedupFirstAux seen l ↔ v ∈ l ∧ v ∉ seen := by
  intro seen l
  induction l generalizing seen with
  | nil => simp [dedupFirstAux]
  | cons x xs ih =>
    by_cases hx : x ∈ seen
    · simp only [dedupFirstAux, if_pos hx, ih]
      constructor
      · rintro ⟨hv, hs⟩
        exact ⟨List.mem_cons_of_mem _ hv, hs⟩
      · rintro ⟨hv, hs⟩
        rcases List.mem_cons.mp hv with rfl | hv'
        · exact absurd hx hs
        · exact ⟨hv', hs⟩
    · simp only [dedupFirstAux, if_neg hx, List.mem_cons, ih]
      by_cases hvx : v = x
      · subst hvx
        simp [hx]
      · simp [hvx]

theorem nodup_dedupFirstAux : ∀ {seen l : List String}, (dedupFirstAux seen l).Nodup := by
  intro seen l
  induction l generalizing seen with
  | nil => simp [dedupFirstAux]
  | cons x xs ih =>
    by_cases hx : x ∈ seen
    · simpa [dedupFirstAux, if_pos hx] using ih
    · simp only [dedupFirstAux, if_neg hx, List.nodup_cons]
      refine ⟨fun h => ?_, ih⟩
      exact (mem_dedupFirstAux.mp h).2 (List.mem_cons_self _ _)

theorem mem_uniq {v : String} {arr : List (Option String)} :
    v ∈ uniq arr ↔ some v ∈ arr ∧ v ≠ "" := by
  simp only [uniq, mem_dedupFirstAux, List.not_mem_nil, not_false_iff, and_true,
    truthyVals, List.mem_filter, List.mem_filterMap, id, exists_eq_right, decide_eq_true_eq]

theorem nodup_uniq {arr : List (Option String)} : (uniq arr).Nodup :=
  nodup_dedupFirstAux

/-! ### Lemmas about the comparators -/

theorem charListLt_irrefl : ∀ l : List Char, charListLt l l = false := by
  intro l
  induction l with
  | nil => rfl
  | cons x xs ih => simp [charListLt, ih, lt_irrefl]

theorem charListLt_asymm :
    ∀ {a b : List Char}, charListLt a b = true → charListLt b a = false := by
  intro a b h
  induction a generalizing b with
  | nil =>
    cases b with
    | nil => simp [charListLt] at h
    | cons y bs => simp [charListLt]
  | cons x as ih =>
    cases b with
    | nil => simp [charListLt] at h
    | cons y bs =>
      simp only [charListLt, Bool.or_eq_true, decide_eq_true_eq, Bool.and_eq_true,
        beq_iff_eq] at h
      simp only [charListLt, Bool.or_eq_false_iff, decide_eq_false_iff_not,
        Bool.and_eq_false_iff, beq_eq_false_iff_ne, ne_eq]
      rcases h with h | ⟨rfl, h2⟩
      · exact ⟨not_lt_of_gt h, Or.inl (fun he => absurd (he ▸ h) (lt_irrefl _))⟩
      · exact ⟨lt_irrefl x, Or.inr (ih h2)⟩

theorem charListLt_trans :
    ∀ {a b c : List Char}, charListLt a b = true → charListLt b c = true →
      charListLt a c = true := by
  intro a b c hab hbc
  induction a generalizing b c with
  | nil =>
    cases c with
    | nil =>
      cases b with
      | nil => simp [charListLt] at hab
      | cons y bs => simp [charListLt] at hbc
    | cons z cs => simp [charListLt]
  | cons x as ih =>
    cases b with
    | nil => simp [charListLt] at hab
    | cons y bs =>
      cases c with
      | nil => simp [charListLt] at hbc
      | cons z cs =>
        simp only [charListLt, Bool.or_eq_true, decide_eq_true_eq, Bool.and_eq_true,
          beq_iff_eq] at hab hbc ⊢
        rcases hab with h1 | ⟨rfl, h1⟩
        · rcases hbc with h2 | ⟨rfl, h2⟩
          · exact Or.inl (lt_trans h1 h2)
          · exact Or.inl h1
        · rcases hbc with h2 | ⟨rfl, h2⟩
          · exact Or.inl h2
          · exact Or.inr ⟨rfl, ih h1 h2⟩

theorem charListLt_connex :
    ∀ {a b : List Char}, a ≠ b → charListLt a b = true ∨ charListLt b a = true := by
  intro a b hne
  induction a generalizing b with
  | nil =>
    cases b with
    | nil => exact absurd rfl hne
    | cons y bs => exact Or.inl (by simp [charListLt])
  | cons x as ih =>
    cases b with
    | nil => exact Or.inr (by simp [charListLt])
    | cons y bs =>
      by_cases hxy : x = y
      · subst hxy
        have hne' : as ≠ bs := fun h => hne (by rw [h])
        rcases ih hne' with h | h
        · exact Or.inl (by simp [charListLt, h])
        · exact Or.inr (by simp [charListLt, h])
      · rcases lt_or_gt_of_ne hxy with h | h
        · exact Or.inl (by simp [charListLt, h])
        · exact Or.inr (by simp [charListLt, h])

theorem strLe_refl (a : String) : strLe a a = true := by
  simp [strLe, strLt, charListLt_irrefl]

theorem strLe_trans {a b c : String} (hab : strLe a b = true) (hbc : strLe b c = true) :
    strLe a c = true := by
  simp only [strLe, strLt, Bool.not_eq_true'] at hab hbc ⊢
  by_contra hca
  rw [Bool.not_eq_false] at hca
  by_cases hbcd : b.data = c.data
  · rw [← hbcd] at hca
    rw [hca] at hab
    cases hab
  · rcases charListLt_connex (fun h => hbcd h) with h | h
    · have := charListLt_trans h hca
      rw [this] at hab
      cases hab
    · rw [h] at hbc
      cases hbc

theorem strLe_total (a b : String) : strLe a b = true ∨ strLe b a = true := by
  simp only [strLe, strLt, Bool.not_eq_true']
  by_cases h : charListLt b.data a.data = true
  · exact Or.inr (charListLt_asymm h)
  · exact Or.inl (by rwa [Bool.not_eq_true] at h)

theorem strCmp_nonpos {a b : String} : strCmp a b ≤ 0 ↔ strLe a b = true := by
  unfold strCmp strLe
  by_cases h1 : strLt a b = true
  · have h2 : strLt b a = false := charListLt_asymm h1
    simp [h1, h2]
  · rw [Bool.not_eq_true] at h1
    by_cases h2 : strLt b a = true
    · simp [h1, h2]
    · rw [Bool.not_eq_true] at h2
      simp [h1, h2]

theorem keyLeB_trans : ∀ a b c : Row, keyLeB a b → keyLeB b c → keyLeB a c := by
  intro a b c hab hbc
  simp only [keyLeB, decide_eq_true_eq, keyLe] at *
  rcases hab with h1 | ⟨e1, h1⟩
  · rcases hbc with h2 | ⟨e2, h2⟩
    · exact Or.inl (lt_trans h1 h2)
    · exact Or.inl (e2 ▸ h1)
  · rcases hbc with h2 | ⟨e2, h2⟩
    · exact Or.inl (e1 ▸ h2)
    · refine Or.inr ⟨e1.trans e2, ?_⟩
      rcases h1 with h1 | ⟨f1, h1⟩
      · rcases h2 with h2 | ⟨f2, h2⟩
        · exact Or.inl (lt_trans h1 h2)
        · exact Or.inl (f2 ▸ h1)
      · rcases h2 with h2 | ⟨f2, h2⟩
        · exact Or.inl (f1 ▸ h2)
        · exact Or.inr ⟨f1.trans f2, strLe_trans h1 h2⟩

theorem keyLeB_total : ∀ a b : Row, keyLeB a b || keyLeB b a := by
  intro a b
  simp only [keyLeB, Bool.or_eq_true, decide_eq_true_eq, keyLe]
  rcases Nat.lt_trichotomy (dayOrder a.day) (dayOrder b.day) with h | h | h
  · exact Or.inl (Or.inl h)
  · rcases Nat.lt_trichotomy (slotOrder a.timeSlot) (slotOrder b.timeSlot) with h' | h' | h'
    · exact Or.inl (Or.inr ⟨h, Or.inl h'⟩)
    · rcases strLe_total (a.courseCode.getD "") (b.courseCode.getD "") with h'' | h''
      · exact Or.inl (Or.inr ⟨h, Or.inr ⟨h', h''⟩⟩)
      · exact Or.inr (Or.inr ⟨h.symm, Or.inr ⟨h'.symm, h''⟩⟩)
    · exact Or.inr (Or.inr ⟨h.symm, Or.inl h'⟩)
  · exact Or.inr (Or.inl h)

/-- On any pair of rows whose day values are either identical or of
distinct weekday rank, the code's comparator agrees with the composite-key
comparator. -/
theorem rowLe_eq_keyLeB_of {a b : Row}
    (h : a.day ≠ b.day → dayOrder a.day ≠ dayOrder b.day) :
    rowLe a b = keyLeB a b := by
  have : (rowCmp a b ≤ 0) ↔ keyLe a b := by
    by_cases hd : a.day = b.day
    · have hdo : dayOrder a.day = dayOrder b.day := by rw [hd]
      by_cases hs : slotOrder a.timeSlot = slotOrder b.timeSlot
      · have : rowCmp a b = strCmp (a.courseCode.getD "") (b.courseCode.getD "") := by
          simp [rowCmp, hd, hs]
        rw [this, strCmp_nonpos]
        simp [keyLe, hdo, hs]
      · have : rowCmp a b =
            (slotOrder a.timeSlot : Int) - (slotOrder b.timeSlot : Int) := by
          simp [rowCmp, hd, hs]
        rw [this]
        simp only [keyLe, hdo, lt_self_iff_false, false_or, true_and]
        constructor
        · intro hle
          exact Or.inl (by omega)
        · rintro (hlt | ⟨heq, _⟩)
          · omega
          · exact absurd heq hs
    · have hdo : dayOrder a.day ≠ dayOrder b.day := h hd
      have : rowCmp a b = (dayOrder a.day : Int) - (dayOrder b.day : Int) := by
        simp [rowCmp, hd]
      rw [this]
      simp only [keyLe]
      constructor
      · intro hle
        exact Or.inl (by omega)
      · rintro (hlt | ⟨heq, _⟩)
        · omega
        · exact absurd heq hdo
  simp only [rowLe, keyLeB, decide_eq_decide]
  exact this

/-- On a list whose distinct day values have distinct weekday ranks, the
sort performed by `render` coincides with sorting by the composite key. -/
theorem sortRows_eq_mergeSort_keyLeB {l : List Row}
    (h : ∀ a ∈ l, ∀ b ∈ l, a.day ≠ b.day → dayOrder a.day ≠ dayOrder b.day) :
    sortRows l = l.mergeSort keyLeB := by
  have hmap := List.map_mergeSort (r := rowLe) (s := keyLeB) (f := id) (l := l)
    (fun a ha b hb => by simpa using rowLe_eq_keyLeB_of (h a ha b hb))
  simpa using hmap


/-! ### Matching -/

theorem matchesRow_iff {f : Filters} {r : Row} :
    matchesRow f r = true ↔
      (f.q ≠ "" → jsIncludes (lowerStr (joinFields r)) f.q = true) ∧
      (f.day ≠ "" → r.day = some f.day) ∧
      (f.slot ≠ "" → r.timeSlot = some f.slot) ∧
      (f.course ≠ "" → r.courseCode = some f.course) ∧
      (f.teacher ≠ "" → r.teacher = some f.teacher) ∧
      (f.semsec ≠ "" → r.semsec = some f.semsec) ∧
      (f.room ≠ "" → r.room = some f.room) := by
  simp only [matchesRow, Bool.and_eq_true, Bool.or_eq_true, beq_iff_eq,
    or_iff_not_imp_left, and_assoc]

/-- C1: with at least one predicate set, a row appears in the query result
iff it is an input row on which every active predicate holds: the
lowercased free-text value (if set) is a substring of the lowercase
space-joined concatenation of the six field values, and each set
categorical predicate equals the corresponding field value exactly.
Consequently the result is a subset of the input rows. -/
theorem query_mem_iff (rows : List Row) (st : FilterState)
    (hact : hasAnyFilter st = true) :
    (∀ r : Row, r ∈ query st rows ↔ r ∈ rows ∧
      ((currentFilters st).q ≠ "" →
        jsIncludes (lowerStr (joinFields r)) (currentFilters st).q = true) ∧
      (st.day ≠ "" → r.day = some st.day) ∧
      (st.slot ≠ "" → r.timeSlot = some st.slot) ∧
      (st.course ≠ "" → r.courseCode = some st.course) ∧
      (st.teacher ≠ "" → r.teacher = some st.teacher) ∧
      (st.semsec ≠ "" → r.semsec = some st.semsec) ∧
      (st.room ≠ "" → r.room = some st.room)) ∧
    (∀ r ∈ query st rows, r ∈ rows) := by
  have hmem : ∀ r : Row, r ∈ query st rows ↔
      r ∈ rows ∧ matchesRow (currentFilters st) r = true := by
    intro r
    simp [query, hact, sortRows, List.mem_mergeSort, applyFilters, List.mem_filter]
  refine ⟨fun r => ?_, fun r hr => ((hmem r).mp hr).1⟩
  rw [hmem r, matchesRow_iff]
  rfl

/-- Witness for C1 at the spec's end-to-end example: course filter
`CSE101` over the two-row collection. -/
theorem query_mem_iff_witness :
    hasAnyFilter stCourse = true ∧
    ((∀ r : Row, r ∈ query stCourse [sunCse, monCse] ↔ r ∈ [sunCse, monCse] ∧
      ((currentFilters stCourse).q ≠ "" →
        jsIncludes (lowerStr (joinFields r)) (currentFilters stCourse).q = true) ∧
      (stCourse.day ≠ "" → r.day = some stCourse.day) ∧
      (stCourse.slot ≠ "" → r.timeSlot = some stCourse.slot) ∧
      (stCourse.course ≠ "" → r.courseCode = some stCourse.course) ∧
      (stCourse.teacher ≠ "" → r.teacher = some stCourse.teacher) ∧
      (stCourse.semsec ≠ "" → r.semsec = some stCourse.semsec) ∧
      (stCourse.room ≠ "" → r.room = some stCourse.room)) ∧
    (∀ r ∈ query stCourse [sunCse, monCse], r ∈ [sunCse, monCse])) :=
  ⟨by decide, query_mem_iff [sunCse, monCse] stCourse (by decide)⟩

/-- C3: when no predicate is set the query result is empty and the
reported state is `inactive`, for every row collection. -/
theorem query_inactive_of_no_filter (st : FilterState) (rows : List Row)
    (h : hasAnyFilter st = false) :
    query st rows = [] ∧ resultState st rows = ResultState.inactive := by
  simp [query, resultState, h]

/-- Witness for C3: the all-unset filter state over a non-empty
collection. -/
theorem query_inactive_of_no_filter_witness :
    hasAnyFilter {} = false ∧
    (query {} [sunCse, monCse] = [] ∧
      resultState {} [sunCse, monCse] = ResultState.inactive) :=
  ⟨by decide, query_inactive_of_no_filter {} [sunCse, monCse] (by decide)⟩

/-- Rows with equal composite keys are related by the composite-key
order. -/
theorem keyLe_of_rowKey_eq {a b : Row} (h : rowKey a = rowKey b) : keyLe a b := by
  simp only [rowKey, Prod.ext_iff] at h
  exact Or.inr ⟨h.1, Or.inr ⟨h.2.1, h.2.2 ▸ strLe_refl _⟩⟩

/-- C2 counterexample: with the free-text filter `slot` set, the rows with
the unknown days `X` and `Y` keep their input order even though the first
has the larger slot rank, so the result is not sorted by the composite
key (day rank, slot rank, course code). -/
theorem query_not_sorted_by_key_cx :
    query stQslot [rowDayX, rowDayY] = [rowDayX, rowDayY] ∧
      dayOrder rowDayX.day = dayOrder rowDayY.day ∧
      slotOrder rowDayY.timeSlot < slotOrder rowDayX.timeSlot ∧
      ¬ keyLe rowDayX rowDayY := by
  refine ⟨?_, by decide, by decide, by decide⟩
  simp +decide [query, sortRows, applyFilters, List.mergeSort, List.merge]

/-- C2 amended: the slot and course keys are consulted only between rows
whose Day values are identical strings; whenever distinct Day values in
the matched rows always have distinct weekday ranks (in particular when
every Day is one of the seven known weekdays), the result is sorted
ascending by the composite key, is a permutation of the matched rows, and
the sort is stable (rows with equal composite keys keep their relative
input order); the rows with days Sunday, Monday, Wednesday always come out
in that order under the Time-Slot filter, whatever the input order. -/
theorem query_sorted_stable_of_dayRank_inj (st : FilterState) (rows : List Row)
    (hact : hasAnyFilter st = true)
    (hinj : ∀ a ∈ applyFilters st rows, ∀ b ∈ applyFilters st rows,
      a.day ≠ b.day → dayOrder a.day ≠ dayOrder b.day) :
    (query st rows).Pairwise keyLe ∧
    (query st rows).Perm (applyFilters st rows) ∧
    (∀ k : Nat × Nat × String,
      (query st rows).filter (fun r => decide (rowKey r = k)) =
        (applyFilters st rows).filter (fun r => decide (rowKey r = k))) ∧
    (query stSlot1 [sunRow, monRow, wedRow] = [sunRow, monRow, wedRow] ∧
      query stSlot1 [sunRow, wedRow, monRow] = [sunRow, monRow, wedRow] ∧
      query stSlot1 [monRow, sunRow, wedRow] = [sunRow, monRow, wedRow] ∧
      query stSlot1 [monRow, wedRow, sunRow] = [sunRow, monRow, wedRow] ∧
      query stSlot1 [wedRow, sunRow, monRow] = [sunRow, monRow, wedRow] ∧
      query stSlot1 [wedRow, monRow, sunRow] = [sunRow, monRow, wedRow]) := by
  have hq : query st rows = (applyFilters st rows).mergeSort keyLeB := by
    simp only [query, hact, if_pos]
    exact sortRows_eq_mergeSort_keyLeB hinj
  refine ⟨?_, ?_, ?_, ?_, ?_, ?_, ?_, ?_, ?_⟩
  case refine_4 =>
    simp +decide [query, sortRows, applyFilters, List.mergeSort, List.merge]
  case refine_5 =>
    simp +decide [query, sortRows, applyFilters, List.mergeSort, List.merge]
  case refine_6 =>
    simp +decide [query, sortRows, applyFilters, List.mergeSort, List.merge]
  case refine_7 =>
    simp +decide [query, sortRows, applyFilters, List.mergeSort, List.merge]
  case refine_8 =>
    simp +decide [query, sortRows, applyFilters, List.mergeSort, List.merge]
  case refine_9 =>
    simp +decide [query, sortRows, applyFilters, List.mergeSort, List.merge]
  · rw [hq]
    exact (List.sorted_mergeSort keyLeB_trans keyLeB_total
      (applyFilters st rows)).imp (fun h => of_decide_eq_true h)
  · rw [hq]
    exact List.mergeSort_perm _ _
  · intro k
    have hself : ((applyFilters st rows).filter (fun r => decide (rowKey r = k))).filter
        (fun r => decide (rowKey r = k)) =
        (applyFilters st rows).filter (fun r => decide (rowKey r = k)) :=
      List.filter_eq_self.mpr (fun a ha => (List.mem_filter.mp ha).2)
    have hcsub : List.Sublist ((applyFilters st rows).filter (fun r => decide (rowKey r = k)))
        ((applyFilters st rows).mergeSort keyLeB) := by
      apply List.sublist_mergeSort keyLeB_trans keyLeB_total
      · apply List.pairwise_of_forall_mem_list
        intro a ha b hb
        have hka := of_decide_eq_true (List.mem_filter.mp ha).2
        have hkb := of_decide_eq_true (List.mem_filter.mp hb).2
        exact decide_eq_true (keyLe_of_rowKey_eq (hka.trans hkb.symm))
      · exact List.filter_sublist _
    have hc2 : List.Sublist ((applyFilters st rows).filter (fun r => decide (rowKey r = k)))
        (((applyFilters st rows).mergeSort keyLeB).filter (fun r => decide (rowKey r = k))) := by
      have := hcsub.filter (fun r => decide (rowKey r = k))
      rwa [hself] at this
    have hlen := ((List.mergeSort_perm (applyFilters st rows) keyLeB).filter
      (fun r => decide (rowKey r = k))).length_eq
    rw [hq]
    exact (hc2.eq_of_length hlen.symm).symm

/-- Witness for the amended C2 at the Time-Slot filter over the three
known-day rows. -/
theorem query_sorted_stable_witness :
    hasAnyFilter stSlot1 = true ∧
    ((query stSlot1 [monRow, sunRow, wedRow]).Pairwise keyLe ∧
      (query stSlot1 [monRow, sunRow, wedRow]).Perm
        (applyFilters stSlot1 [monRow, sunRow, wedRow]) ∧
      (∀ k : Nat × Nat × String,
        (query stSlot1 [monRow, sunRow, wedRow]).filter (fun r => decide (rowKey r = k)) =
          (applyFilters stSlot1 [monRow, sunRow, wedRow]).filter
            (fun r => decide (rowKey r = k))) ∧
      (query stSlot1 [sunRow, monRow, wedRow] = [sunRow, monRow, wedRow] ∧
        query stSlot1 [sunRow, wedRow, monRow] = [sunRow, monRow, wedRow] ∧
        query stSlot1 [monRow, sunRow, wedRow] = [sunRow, monRow, wedRow] ∧
        query stSlot1 [monRow, wedRow, sunRow] = [sunRow, monRow, wedRow] ∧
        query stSlot1 [wedRow, sunRow, monRow] = [sunRow, monRow, wedRow] ∧
        query stSlot1 [wedRow, monRow, sunRow] = [sunRow, monRow, wedRow])) :=
  ⟨by decide, query_sorted_stable_of_dayRank_inj stSlot1 [monRow, sunRow, wedRow]
    (by decide) (by decide)⟩

/-- C8 counterexample: with the free-text filter `slot` set over five rows
with the unknown days `X` and `Y`, re-sorting the already-sorted query
result changes it, because the comparator is not transitive across
distinct unknown day values. -/
theorem sort_not_idempotent_cx :
    sortRows (query stQslot [rowX9, rowY3, rowX9, rowY1, rowX1]) ≠
      query stQslot [rowX9, rowY3, rowX9, rowY1, rowX1] := by
  simp +decide [query, sortRows, applyFilters, List.mergeSort, List.merge]

/-- C8 amended: sorting is idempotent provided distinct Day values among
the matched rows always have distinct weekday ranks (in particular when
every Day is a known weekday); rows with distinct unknown Day values can
be reordered by a second sort. -/
theorem sort_idempotent_of_dayRank_inj (st : FilterState) (rows : List Row)
    (hinj : ∀ a ∈ applyFilters st rows, ∀ b ∈ applyFilters st rows,
      a.day ≠ b.day → dayOrder a.day ≠ dayOrder b.day) :
    sortRows (query st rows) = query st rows := by
  by_cases hact : hasAnyFilter st = true
  · have hq : query st rows = (applyFilters st rows).mergeSort keyLeB := by
      simp only [query, hact, if_pos]
      exact sortRows_eq_mergeSort_keyLeB hinj
    have hinj' : ∀ a ∈ (applyFilters st rows).mergeSort keyLeB,
        ∀ b ∈ (applyFilters st rows).mergeSort keyLeB,
        a.day ≠ b.day → dayOrder a.day ≠ dayOrder b.day :=
      fun a ha b hb => hinj a (List.mem_mergeSort.mp ha) b (List.mem_mergeSort.mp hb)
    rw [hq, sortRows_eq_mergeSort_keyLeB hinj']
    exact List.mergeSort_of_sorted
      (List.sorted_mergeSort keyLeB_trans keyLeB_total (applyFilters st rows))
  · rw [Bool.not_eq_true] at hact
    simp [query, hact, sortRows]

/-- Witness for the amended C8 at the Time-Slot filter over the three
known-day rows. -/
theorem sort_idempotent_witness :
    hasAnyFilter stSlot1 = true ∧
    sortRows (query stSlot1 [monRow, sunRow, wedRow]) =
      query stSlot1 [monRow, sunRow, wedRow] :=
  ⟨by decide, sort_idempotent_of_dayRank_inj stSlot1 [monRow, sunRow, wedRow] (by decide)⟩

/-! ### Normalization of absent fields -/

theorem matchGuard (x : String) (v : Option String) :
    (x == "" || (some (v.getD "") == some x)) = (x == "" || (v == some x)) := by
  cases v with
  | some s => rfl
  | none =>
    by_cases hx : x = ""
    · simp [hx]
    · simp [hx, Ne.symm hx]

theorem matchesRow_normRow (f : Filters) (r : Row) :
    matchesRow f (normRow r) = matchesRow f r := by
  obtain ⟨d, ts, cc, te, se, ro⟩ := r
  simp only [matchesRow, normRow, joinFields, jsJoinVal, Option.getD_some]
  rw [matchGuard, matchGuard, matchGuard, matchGuard, matchGuard, matchGuard]

/-- C7 counterexample: a row with an absent Day and a row with an
empty-string Day keep their input order, while after normalizing absent
fields to the empty string the sort swaps them; so missing values are not
simply treated as empty strings for sorting purposes. -/
theorem query_norm_cx :
    (query stQslot [rowNoDay, rowEmptyDay]).map normRow ≠
      query stQslot ([rowNoDay, rowEmptyDay].map normRow) := by
  simp +decide [query, sortRows, applyFilters, List.mergeSort, List.merge, normRow]

/-- C7 amended: both operations are total; matching is invariant under
normalizing absent fields to the empty string, and each of the three sort
keys (day rank, slot rank, course code) treats an absent field as the
empty string — but the comparator's day identity check distinguishes an
absent Day from an empty-string Day, so the result order is not invariant
under that normalization. -/
theorem matching_norm_invariant (st : FilterState) (rows : List Row) (r : Row) :
    applyFilters st (rows.map normRow) = (applyFilters st rows).map normRow ∧
    dayOrder (normRow r).day = dayOrder r.day ∧
    slotOrder (normRow r).timeSlot = slotOrder r.timeSlot ∧
    (normRow r).courseCode.getD "" = r.courseCode.getD "" ∧
    (query st rows).length ≤ rows.length := by
  obtain ⟨d, ts, cc, te, se, ro⟩ := r
  refine ⟨?_, ?_, ?_, ?_, ?_⟩
  · unfold applyFilters
    rw [List.filter_map]
    exact congrArg (List.map normRow)
      (List.filter_congr (fun x _ => matchesRow_normRow (currentFilters st) x))
  · cases d <;> rfl
  · cases ts <;> rfl
  · cases cc <;> rfl
  · unfold query
    split_ifs
    · simpa [sortRows] using List.length_filter_le (matchesRow (currentFilters st)) rows
    · simp

/-! ### Domains -/

/-- C4: for every row collection and every categorical field, the
extracted domain contains exactly the distinct non-empty values of the
field occurring in the collection — membership is equivalent to being a
non-empty occurring value, there are no duplicates, and the spec's Room
example evaluates to `101, 204`. -/
theorem extractDomain_mem_nodup :
    (∀ (rows : List Row) (fld : Field) (v : String),
      v ∈ extractDomain rows fld ↔ v ≠ "" ∧ some v ∈ rows.map (fieldGet fld)) ∧
    (∀ (rows : List Row) (fld : Field), (extractDomain rows fld).Nodup) ∧
    extractDomain [roomRow "101", roomRow "", roomRow "101", roomRow "204"] Field.room =
      ["101", "204"] := by
  refine ⟨?_, ?_, ?_⟩
  · intro rows fld v
    cases fld <;>
      simp only [extractDomain, List.mem_mergeSort, mem_uniq] <;>
      exact and_comm
  · intro rows fld
    cases fld <;>
      exact ((List.mergeSort_perm _ _).nodup_iff).mpr nodup_uniq
  · simp +decide [extractDomain, uniq, truthyVals, dedupFirstAux, roomRow, fieldGet,
      List.mergeSort, List.merge]

/-- A pairwise-ordered list places `a` before `b` whenever the order does
not hold from `b` to `a`. -/
theorem indexOf_lt_of_pairwise {α : Type} [DecidableEq α] {R : α → α → Prop}
    {l : List α} (hp : l.Pairwise R) {a b : α} (ha : a ∈ l) (hb : b ∈ l)
    (hne : a ≠ b) (hnR : ¬ R b a) : l.indexOf a < l.indexOf b := by
  have hia : l.indexOf a < l.length := List.indexOf_lt_length.mpr ha
  have hib : l.indexOf b < l.length := List.indexOf_lt_length.mpr hb
  rcases Nat.lt_trichotomy (l.indexOf a) (l.indexOf b) with h | h | h
  · exact h
  · exact absurd ((List.indexOf_inj ha hb).mp h) hne
  · exfalso
    apply hnR
    have := List.pairwise_iff_getElem.mp hp _ _ hib hia h
    rwa [List.getElem_indexOf hia, List.getElem_indexOf hib] at this

/-- C5: the slot rank of `Slot 2` is 2 and of `Slot 10` is 10, so the
ordering is numeric rather than lexicographic: in any Time-Slot domain
containing both values, `Slot 2` is listed before `Slot 10`, and in the
query result two otherwise-identical Sunday rows carrying these slots come
out with the `Slot 2` row first, whatever the input order. -/
theorem slot_numeric_order (rows : List Row)
    (h2 : "Slot 2" ∈ extractDomain rows Field.slot)
    (h10 : "Slot 10" ∈ extractDomain rows Field.slot) :
    slotOrderS "Slot 2" = 2 ∧ slotOrderS "Slot 10" = 10 ∧
    (extractDomain rows Field.slot).indexOf "Slot 2" <
      (extractDomain rows Field.slot).indexOf "Slot 10" ∧
    query stSunday [slotRow10, slotRow2] = [slotRow2, slotRow10] ∧
    query stSunday [slotRow2, slotRow10] = [slotRow2, slotRow10] := by
  refine ⟨by decide, by decide, ?_, ?_, ?_⟩
  · have hdom : extractDomain rows Field.slot =
        (uniq (rows.map (fieldGet Field.slot))).mergeSort
          (fun a b => decide (slotOrderS a ≤ slotOrderS b)) := rfl
    have hsorted : (extractDomain rows Field.slot).Pairwise
        (fun a b => slotOrderS a ≤ slotOrderS b) := by
      rw [hdom]
      refine (List.sorted_mergeSort ?_ ?_ _).imp (fun h => of_decide_eq_true h)
      · intro a b c hab hbc
        simp only [decide_eq_true_eq] at *
        omega
      · intro a b
        simp only [Bool.or_eq_true, decide_eq_true_eq]
        omega
    exact indexOf_lt_of_pairwise hsorted h2 h10 (by decide) (by decide)
  · simp +decide [query, sortRows, applyFilters, List.mergeSort, List.merge]
  · simp +decide [query, sortRows, applyFilters, List.mergeSort, List.merge]

/-- Witness for C5 over a collection carrying both slot values. -/
theorem slot_numeric_order_witness :
    "Slot 2" ∈ extractDomain [slotRow2, slotRow10] Field.slot ∧
    "Slot 10" ∈ extractDomain [slotRow2, slotRow10] Field.slot ∧
    (slotOrderS "Slot 2" = 2 ∧ slotOrderS "Slot 10" = 10 ∧
      (extractDomain [slotRow2, slotRow10] Field.slot).indexOf "Slot 2" <
        (extractDomain [slotRow2, slotRow10] Field.slot).indexOf "Slot 10" ∧
      query stSunday [slotRow10, slotRow2] = [slotRow2, slotRow10] ∧
      query stSunday [slotRow2, slotRow10] = [slotRow2, slotRow10]) := by
  have hm2 : "Slot 2" ∈ extractDomain [slotRow2, slotRow10] Field.slot := by
    rw [extractDomain]
    simp [mem_uniq, fieldGet, slotRow2]
  have hm10 : "Slot 10" ∈ extractDomain [slotRow2, slotRow10] Field.slot := by
    rw [extractDomain]
    simp [mem_uniq, fieldGet, slotRow10]
  exact ⟨hm2, hm10, slot_numeric_order [slotRow2, slotRow10] hm2 hm10⟩

/-! ### The slot sentinel -/

/-- C6 counterexample: `Slot 10000` carries an extracted rank above the
9999 sentinel, so the unranked value `lunch` does not sort after it — the
sentinel is not larger than every extracted rank. -/
theorem slot_sentinel_cx :
    slotScan "lunch".data = none ∧ slotScan "Slot 10000".data = some 10000 ∧
      ¬ slotOrderS "lunch" > slotOrderS "Slot 10000" := by
  decide

/-- C6 amended: a value in which no integer follows `slot` ranks exactly
9999, which is larger than the rank of any value whose extracted integer
is below 9999; such unranked values hence sort after those ranked values
(but not after values whose extracted integer reaches the sentinel). -/
theorem slot_sentinel_of_small_rank (s t : String) (n : Nat)
    (hs : slotScan s.data = none) (ht : slotScan t.data = some n) (hn : n < 9999) :
    slotOrderS s = 9999 ∧ slotOrderS t < slotOrderS s := by
  have h1 : slotOrderS s = 9999 := by simp [slotOrderS, hs]
  have h2 : slotOrderS t = n := by simp [slotOrderS, ht]
  exact ⟨h1, by omega⟩

/-- Witness for the amended C6 at `lunch` and `Slot 7`. -/
theorem slot_sentinel_witness :
    slotScan "lunch".data = none ∧ slotScan "Slot 7".data = some 7 ∧ 7 < 9999 ∧
      (slotOrderS "lunch" = 9999 ∧ slotOrderS "Slot 7" < slotOrderS "lunch") :=
  ⟨by decide, by decide, by decide,
    slot_sentinel_of_small_rank "lunch" "Slot 7" 7 (by decide) (by decide) (by decide)⟩

/-! ### Trimming -/

theorem dropWhile_ws_of_all {w x : List Char} (hw : ∀ c ∈ w, isWs c = true) :
    (w ++ x).dropWhile isWs = x.dropWhile isWs := by
  induction w with
  | nil => rfl
  | cons c cs ih =>
    rw [List.cons_append, List.dropWhile_cons, if_pos (hw c (List.mem_cons_self _ _))]
    exact ih (fun c hc => hw c (List.mem_cons_of_mem _ hc))

theorem trimChars_pad {w1 w2 x : List Char} (h1 : ∀ c ∈ w1, isWs c = true)
    (h2 : ∀ c ∈ w2, isWs c = true) :
    trimChars (w1 ++ (x ++ w2)) = trimChars x := by
  unfold trimChars
  rw [dropWhile_ws_of_all h1]
  by_cases hx : x.dropWhile isWs = []
  · have hxw : (x ++ w2).dropWhile isWs = [] := by
      rw [List.dropWhile_append]
      simp [hx, List.dropWhile_eq_nil_iff.mpr h2]
    rw [hxw, hx]
  · have hxw : (x ++ w2).dropWhile isWs = x.dropWhile isWs ++ w2 := by
      rw [List.dropWhile_append]
      simp [hx]
    rw [hxw, List.reverse_append,
      dropWhile_ws_of_all (fun c hc => h2 c (List.mem_reverse.mp hc))]

theorem jsTrim_pad (w1 w2 s : String) (h1 : ∀ c ∈ w1.data, isWs c = true)
    (h2 : ∀ c ∈ w2.data, isWs c = true) :
    jsTrim (w1 ++ s ++ w2) = jsTrim s := by
  unfold jsTrim
  exact congrArg String.mk
    (by rw [String.data_append, String.data_append, List.append_assoc]
        exact trimChars_pad h1 h2)

theorem currentFilters_pad (st : FilterState) (w1 w2 : String)
    (h1 : ∀ c ∈ w1.data, isWs c = true) (h2 : ∀ c ∈ w2.data, isWs c = true) :
    currentFilters { st with q := w1 ++ st.q ++ w2 } = currentFilters st := by
  simp [currentFilters, jsTrim_pad w1 w2 st.q h1 h2]

/-- C9: the free-text query is trimmed before use — a whitespace-only
query counts as unset (with all selectors empty the state is `inactive`),
and padding any query with leading or trailing whitespace changes neither
the matched rows nor the query result. -/
theorem trim_whitespace_query (st : FilterState) (rows : List Row) (w1 w2 : String)
    (hw1 : ∀ c ∈ w1.data, isWs c = true) (hw2 : ∀ c ∈ w2.data, isWs c = true) :
    ((∀ c ∈ st.q.data, isWs c = true) → st.day = "" → st.slot = "" → st.course = "" →
      st.teacher = "" → st.semsec = "" → st.room = "" →
      hasAnyFilter st = false ∧ query st rows = [] ∧
        resultState st rows = ResultState.inactive) ∧
    applyFilters { st with q := w1 ++ st.q ++ w2 } rows = applyFilters st rows ∧
    query { st with q := w1 ++ st.q ++ w2 } rows = query st rows := by
  have hcf := currentFilters_pad st w1 w2 hw1 hw2
  refine ⟨?_, ?_, ?_⟩
  · intro hq hd hs hc ht hss hr
    have htc : trimChars st.q.data = [] := by
      unfold trimChars
      rw [List.dropWhile_eq_nil_iff.mpr hq]
      rfl
    have hq0 : jsTrim st.q = "" := by
      unfold jsTrim
      rw [htc]
    have hno : hasAnyFilter st = false := by
      simp [hasAnyFilter, hasAnyFilterF, currentFilters, hq0, hd, hs, hc, ht, hss, hr,
        lowerStr]
    exact ⟨hno, by simp [query, hno], by simp [resultState, hno]⟩
  · unfold applyFilters
    rw [hcf]
  · unfold query hasAnyFilter applyFilters
    rw [hcf]

/-- Witness for C9: a padded course query matches like the unpadded one,
and a whitespace-only query is inactive. -/
theorem trim_whitespace_query_witness :
    (∀ c ∈ ("   " : String).data, isWs c = true) ∧
    (((∀ c ∈ ("" : String).data, isWs c = true) → "" = "" → "" = "" → "" = "" →
        "" = "" → "" = "" → "" = "" →
        hasAnyFilter {} = false ∧ query {} [sunCse] = [] ∧
          resultState {} [sunCse] = ResultState.inactive) ∧
      applyFilters { ({} : FilterState) with q := "   " ++ ("" : String) ++ "   " } [sunCse] =
        applyFilters {} [sunCse] ∧
      query { ({} : FilterState) with q := "   " ++ ("" : String) ++ "   " } [sunCse] =
        query {} [sunCse]) :=
  ⟨by decide, trim_whitespace_query {} [sunCse] "   " "   " (by decide) (by decide)⟩

/-! ### Characterizing the slot-rank extraction -/

theorem ws_not_digit {c : Char} (h : isWs c = true) : c.isDigit = false := by
  simp only [isWs, Bool.or_eq_true, decide_eq_true_eq] at h
  rcases h with ((((rfl | rfl) | rfl) | rfl) | rfl) | rfl <;> rfl

theorem digit_not_ws {c : Char} (h : c.isDigit = true) : isWs c = false := by
  by_contra hc
  rw [Bool.not_eq_false] at hc
  rw [ws_not_digit hc] at h
  cases h

theorem head?_dropWhile_not {α : Type} {p : α → Bool} {l : List α} {c : α}
    (h : (l.dropWhile p).head? = some c) : p c = false := by
  induction l with
  | nil => simp at h
  | cons a t ih =>
    rw [List.dropWhile_cons] at h
    split at h
    · exact ih h
    · next hp =>
      rw [List.head?_cons, Option.some.injEq] at h
      rw [← h]
      exact Bool.not_eq_true _ ▸ hp

theorem takeWhile_all_append {α : Type} {p : α → Bool} {ds rest : List α}
    (hds : ∀ c ∈ ds, p c = true) (hrest : ∀ c, rest.head? = some c → p c = false) :
    (ds ++ rest).takeWhile p = ds ∧ (ds ++ rest).dropWhile p = rest := by
  induction ds with
  | nil =>
    cases rest with
    | nil => exact ⟨rfl, rfl⟩
    | cons r rs =>
      have hr := hrest r rfl
      simp [List.takeWhile_cons, List.dropWhile_cons, hr]
  | cons d dt ih =>
    have hd := hds d (List.mem_cons_self _ _)
    have := ih (fun c hc => hds c (List.mem_cons_of_mem _ hc))
    simp [List.takeWhile_cons, List.dropWhile_cons, hd, this.1, this.2]

/-- The anchored matcher succeeds with value `m` exactly on lists matching
the declarative pattern. -/
theorem slotMatchAt_iff {cs : List Char} {m : Nat} :
    slotMatchAt cs = some m ↔ slotPat cs m := by
  constructor
  · intro h
    rcases cs with _ | ⟨c1, _ | ⟨c2, _ | ⟨c3, _ | ⟨c4, rest⟩⟩⟩⟩
    · exact absurd h (by simp [slotMatchAt])
    · exact absurd h (by simp [slotMatchAt])
    · exact absurd h (by simp [slotMatchAt])
    · exact absurd h (by simp [slotMatchAt])
    simp only [slotMatchAt] at h
    split at h
    · next hcond =>
      simp only [Bool.and_eq_true, beq_iff_eq] at hcond
      obtain ⟨⟨⟨e1, e2⟩, e3⟩, e4⟩ := hcond
      split at h
      · cases h
      · next hne =>
        rw [Option.some.injEq] at h
        refine ⟨c1, c2, c3, c4, rest.takeWhile isWs,
          takeDigits (rest.dropWhile isWs),
          (rest.dropWhile isWs).dropWhile Char.isDigit,
          ?_, e1, e2, e3, e4, ?_, ?_, ?_, ?_, h.symm⟩
        · rw [takeDigits, List.takeWhile_append_dropWhile,
            List.takeWhile_append_dropWhile]
        · exact fun c hc => List.mem_takeWhile_imp hc
        · intro hnil
          rw [hnil] at hne
          exact hne rfl
        · exact fun c hc => List.mem_takeWhile_imp hc
        · exact fun c hc => head?_dropWhile_not hc
    · cases h
  · rintro ⟨c1, c2, c3, c4, w, ds, rest, rfl, h1, h2, h3, h4, hw, hne, hds, hrest, rfl⟩
    have hcond : (c1.toLower == 's' && c2.toLower == 'l' && c3.toLower == 'o' &&
        c4.toLower == 't') = true := by
      simp [h1, h2, h3, h4]
    have hdw : (w ++ (ds ++ rest)).dropWhile isWs = ds ++ rest := by
      rw [dropWhile_ws_of_all hw]
      cases ds with
      | nil => exact absurd rfl hne
      | cons d dt =>
        rw [List.cons_append, List.dropWhile_cons,
          if_neg (by simp [digit_not_ws (hds d (List.mem_cons_self _ _))])]
    have htk : takeDigits (ds ++ rest) = ds :=
      (takeWhile_all_append hds hrest).1
    simp only [slotMatchAt, hcond, if_true, hdw, htk]
    rw [if_neg (by simpa [List.isEmpty_iff] using hne)]

/-- The scanner returns the value captured at the first position where the
anchored matcher succeeds. -/
theorem slotScan_eq_some_iff {cs : List Char} {n : Nat} :
    slotScan cs = some n ↔
      ∃ i, slotMatchAt (cs.drop i) = some n ∧
        ∀ j < i, slotMatchAt (cs.drop j) = none := by
  constructor
  · intro h
    induction cs with
    | nil => simp [slotScan] at h
    | cons c t ih =>
      rcases hm : slotMatchAt (c :: t) with _ | m
      · rw [slotScan, hm] at h
        obtain ⟨i, hi, hfirst⟩ := ih h
        refine ⟨i + 1, by simpa using hi, fun j hj => ?_⟩
        cases j with
        | zero => exact hm
        | succ k => simpa using hfirst k (Nat.lt_of_succ_lt_succ hj)
      · rw [slotScan, hm] at h
        exact ⟨0, by simpa [hm] using h, fun j hij => absurd hij (Nat.not_lt_zero j)⟩
  · rintro ⟨i, hi, hfirst⟩
    induction cs generalizing i with
    | nil => rw [List.drop_nil] at hi; cases hi
    | cons c t ih =>
      cases i with
      | zero =>
        rw [List.drop_zero] at hi
        rw [slotScan, hi]
      | succ k =>
        have h0 := hfirst 0 (Nat.succ_pos k)
        rw [List.drop_zero] at h0
        rw [slotScan, h0]
        exact ih k (by simpa using hi)
          (fun j hj => by simpa using hfirst (j + 1) (Nat.succ_lt_succ hj))

/-- C10: the marker `slot` need not be a standalone word and any run of
whitespace may separate it from the digits: whenever the anchored pattern
(case-insensitive `slot`, optional whitespace, digits) matches first at
some position of the value, the slot rank is the value of those digits;
`Timeslot3` ranks 3 and `SLOT  7` ranks 7, and the anchored matcher is
exactly the declarative pattern. -/
theorem slotOrder_first_match (s : String) (i n : Nat)
    (hi : slotMatchAt (s.data.drop i) = some n)
    (hfirst : ∀ j < i, slotMatchAt (s.data.drop j) = none) :
    slotOrderS s = n ∧
    (∀ (cs : List Char) (m : Nat), slotMatchAt cs = some m ↔ slotPat cs m) ∧
    slotOrderS "Timeslot3" = 3 ∧ slotOrderS "SLOT  7" = 7 := by
  refine ⟨?_, fun cs m => slotMatchAt_iff, by decide, by decide⟩
  have := slotScan_eq_some_iff.mpr ⟨i, hi, hfirst⟩
  simp [slotOrderS, this]

/-- Witness for C10 at `Timeslot3`, whose pattern first matches at
position 4. -/
theorem slotOrder_first_match_witness :
    slotMatchAt ("Timeslot3".data.drop 4) = some 3 ∧
    (∀ j < 4, slotMatchAt ("Timeslot3".data.drop j) = none) ∧
    (slotOrderS "Timeslot3" = 3 ∧
      (∀ (cs : List Char) (m : Nat), slotMatchAt cs = some m ↔ slotPat cs m) ∧
      slotOrderS "Timeslot3" = 3 ∧ slotOrderS "SLOT  7" = 7) :=
  ⟨by decide, by decide,
    slotOrder_first_match "Timeslot3" 4 3 (by decide) (by decide)⟩

end VU
